import Mathlib

/-!
# Verification of the adlfs filesystem layer (`src/adlfs/aio/core.py`)

Shallow embedding of the path/glob/listing/walk logic of `AzureBlobFileSystem`,
the seek logic of `AzureDatalakeFile`, and the buffered multipart writer
`AzureBlobFile`.  Python strings are modelled as `List Char`, bytes as
`List Nat`, fallible methods return `Except Err _`, and the Azure SDK
collaborator (container/blob listings, block staging) is modelled as explicit
oracle parameters / store structures.
-/

namespace Adlfs

/-- Python `str`, modelled as a list of characters. -/
abbrev PyStr := List Char

/-- Errors raised by the embedded code (Python exception classes). -/
inductive Err where
  /-- Python `ValueError(msg)`. -/
  | valueError (msg : String)
  /-- Python `FileNotFoundError`. -/
  | fileNotFound
  /-- Python `KeyError` from `blob["blob_type"]` on an item without that key. -/
  | keyError
  /-- Python `TypeError`, e.g. `async for` over an object with no
  `__aiter__` (a plain list). -/
  | typeError
  /-- An SDK exception escaping a call the source does not wrap in `try`. -/
  | sdkError
  /-- Python `RuntimeError(msg)`. -/
  | runtimeError (msg : String)
deriving DecidableEq, Repr

/-- Python `s.lstrip("/")`: drop every leading `'/'`. -/
def lstripSlash (s : PyStr) : PyStr := s.dropWhile (· == '/')

/-- Python `s.rstrip("/")`: drop every trailing `'/'`. -/
def rstripSlash (s : PyStr) : PyStr := (s.reverse.dropWhile (· == '/')).reverse

/-!
## `AzureDatalakeFile.seek` (core.py lines 222-247)

The handle state used by `seek` is the mode string, the cursor `loc` and the
object size fetched at open time.
-/

/-- The state of an `AzureDatalakeFile` handle seen by `seek`. -/
structure DLFile where
  mode : String
  loc : Int
  size : Int
deriving DecidableEq, Repr

/-- `AzureDatalakeFile.seek(loc, whence)`.  Returns the updated handle and the
new cursor; raises `ValueError` exactly where the Python does.  (The Python
message for a bad whence interpolates the offending value; we keep the constant
part of the message.) -/
def DLFile.seek (f : DLFile) (loc : Int) (whence : Int) : Except Err (DLFile × Int) :=
  if ¬ (f.mode = "rb") then
    .error (.valueError "Seek only available in read mode")
  else
    let nloc? : Except Err Int :=
      if whence = 0 then .ok loc
      else if whence = 1 then .ok (f.loc + loc)
      else if whence = 2 then .ok (f.size + loc)
      else .error (.valueError "invalid whence (should be 0, 1 or 2)")
    match nloc? with
    | .error e => .error e
    | .ok nloc =>
      if nloc < 0 then .error (.valueError "Seek before start of file")
      else .ok ({ f with loc := nloc }, nloc)

/-!
## `AzureBlobFileSystem._details` (core.py lines 720-757)

`_details` builds one listing dictionary from an SDK content item.  The item is
modelled by which keys it carries (`has_key("container")`, `has_key("size")`)
plus the corresponding values.
-/

/-- The `type` field of a listing entry. -/
inductive EType where
  | file
  | directory
deriving DecidableEq, Repr

/-- An SDK content item as consumed by `_details`: which dictionary keys it
carries, and their values. -/
structure Content where
  hasContainer : Bool
  container : PyStr
  name : PyStr
  hasSize : Bool
  size : Nat
deriving DecidableEq, Repr

/-- A listing dictionary produced by `_details` (`name`, `size`, `type`). -/
structure Detail where
  name : PyStr
  size : Nat
  type : EType
deriving DecidableEq, Repr

/-- `AzureBlobFileSystem._details(content, delimiter="/", return_glob)`. -/
def details (content : Content) (return_glob : Bool) : Detail :=
  let data :=
    if content.hasContainer then
      let size := if content.hasSize then content.size else 0
      { name := content.container ++ '/' :: content.name
        size := size
        type := if size = 0 then .directory else .file : Detail }
    else
      { name := content.name ++ ['/'], size := 0, type := .directory : Detail }
  if return_glob then { data with name := rstripSlash data.name } else data

/-!
## `AzureBlobFileSystem.split_path` (core.py lines 444-473) and
`_strip_protocol` (lines 360-386)

`_strip_protocol` delegates scheme parsing to fsspec's
`infer_storage_options` (an external collaborator); for protocol-free paths —
the only paths the claims exercise — it reduces to stripping leading slashes.
-/

/-- `AzureBlobFileSystem._strip_protocol` restricted to protocol-free paths. -/
def strip_protocol (path : PyStr) : PyStr := lstripSlash path

/-- Python `s.split("/", 1)` for a string containing `'/'`:
the part before the first `'/'` and the remainder. -/
def splitFirstSlash : PyStr → PyStr × PyStr
  | [] => ([], [])
  | c :: rest =>
    if c = '/' then ([], rest)
    else
      let p := splitFirstSlash rest
      (c :: p.1, p.2)

/-- `AzureBlobFileSystem.split_path(path)` with the default delimiter. -/
def split_path (path : PyStr) : PyStr × PyStr :=
  if path = [] ∨ path = ['/'] then ([], [])
  else
    let p := lstripSlash (strip_protocol path)
    if p.contains '/' then splitFirstSlash p else (p, [])

/-!
## `AzureBlobFileSystem.ls` (core.py lines 580-718)

The SDK collaborator is a `BlobStore`: the account's container items and the
per-container `walk_blobs(name_starts_with=...)` listing.  A listing that
fails while being iterated is `none`.  Items returned by `walk_blobs` are
`BlobItem`s: a kind tag (plain properties, `BlobPrefix`, `ItemPaged`), the
dictionary-ish content, the optional `blob_type` key, and — for the iterable
kinds — the contained items.  Attribute access (`.name`, `.container`) is
modelled as total, i.e. every item carries those fields.

`ls` returns `Except Err (Option _)`: `.error` for a raised exception
(including the `TypeError` the `ItemPaged` branch raises by `async for`-ing
over a plain list), `.ok none` for a code path that falls off the end of the
Python method and implicitly returns `None`, `.ok (some entries)` for a
normal return.  A returned entry is a bare name when `detail=False` and a
`_details` dictionary otherwise.
-/

/-- The run-time class of an item yielded by `walk_blobs`. -/
inductive BKind where
  | props
  | blobPfx
  | paged
deriving DecidableEq, Repr

/-- An item of a `walk_blobs` listing. -/
inductive BlobItem where
  | mk (kind : BKind) (content : Content) (hasBlobType : Bool) (blobType : PyStr)
      (items : List BlobItem) : BlobItem

/-- The kind tag of an item. -/
def BlobItem.kind : BlobItem → BKind
  | .mk k _ _ _ _ => k

/-- The content (dictionary fields) of an item. -/
def BlobItem.content : BlobItem → Content
  | .mk _ c _ _ _ => c

/-- `item.name`. -/
def BlobItem.name (b : BlobItem) : PyStr := b.content.name

/-- `item.container`. -/
def BlobItem.container (b : BlobItem) : PyStr := b.content.container

/-- `item.has_key("blob_type")`. -/
def BlobItem.hasBlobType : BlobItem → Bool
  | .mk _ _ h _ _ => h

/-- `item["blob_type"]` (meaningful only when `hasBlobType`). -/
def BlobItem.blobType : BlobItem → PyStr
  | .mk _ _ _ t _ => t

/-- The items contained in an iterable item (`BlobPrefix` page contents /
`ItemPaged` page contents). -/
def BlobItem.items : BlobItem → List BlobItem
  | .mk _ _ _ _ is => is

/-- The Azure SDK collaborator used by `ls`. -/
structure BlobStore where
  containers : List Content
  walkBlobs : PyStr → PyStr → Option (List BlobItem)

/-- One element of an `ls` result: a bare name (`detail=False`) or a
`_details` dictionary. -/
inductive LsEntry where
  | nameOnly (s : PyStr)
  | det (d : Detail)
deriving DecidableEq, Repr

/-- `[self._details(blob, return_glob) for blob in blobs]`. -/
def lsDetailsMap (blobs : List BlobItem) (return_glob : Bool) : List LsEntry :=
  blobs.map (fun b => .det (details b.content return_glob))

/-- `[f"{blob.container}/{blob.name}" for blob in blobs]`. -/
def lsNamesMap (blobs : List BlobItem) : List LsEntry :=
  blobs.map (fun b => .nameOnly (b.container ++ '/' :: b.name))

/-- Python `s.split("/", maxsplit)`. -/
def splitSlashN : Nat → PyStr → List PyStr
  | 0, s => [s]
  | n + 1, s =>
    if s.contains '/' then
      (splitFirstSlash s).1 :: splitSlashN n (splitFirstSlash s).2
    else [s]

/-- The directory string built in the `BlobPrefix` branch of `ls`
(`"/".join(f"{blob.container}/{blob.name}".split("/", depth)[0:depth]) + "/"`). -/
def pfxDirName (blob : BlobItem) (depth : Nat) : PyStr :=
  let directory0 := blob.container ++ '/' :: blob.name
  let dirParts := (splitSlashN depth directory0).take depth
  (List.intercalate ['/'] dirParts) ++ ['/']

/-- `AzureBlobFileSystem.ls(path, detail, return_glob)` with the default
delimiter `"/"` and `invalidate_cache=True` (the cache is never consulted in
the source). -/
def ls (store : BlobStore) (rawPath : PyStr) (detail return_glob : Bool) :
    Except Err (Option (List LsEntry)) :=
  let target_path := lstripSlash rawPath
  let cp := split_path rawPath
  let container := cp.1
  let path := cp.2
  if (container = [] ∨ container = ['.'] ∨ container = ['/'])
      ∧ (path = [] ∨ path = ['/']) then
    -- list the account's containers
    .ok (some (if detail then store.containers.map (fun c => .det (details c false))
               else store.containers.map (fun c => .nameOnly (c.name ++ ['/']))))
  else if ¬ (container = [] ∨ container = ['/']) then
    match store.walkBlobs container path with
    | none => .error .fileNotFound   -- `except Exception: raise FileNotFoundError`
    | some blobs =>
      if 1 < blobs.length then
        .ok (some (if return_glob then lsDetailsMap blobs true
                   else if detail then lsDetailsMap blobs false
                   else lsNamesMap blobs))
      else
        match blobs with
        | [b] =>
          if rstripSlash b.name = path ∧ ¬ (b.hasBlobType = true) then
            -- re-list with the resolved key as the new prefix
            match store.walkBlobs container b.name with
            | none => .error .sdkError   -- iteration failure is not wrapped here
            | some blobs2 =>
              .ok (some (if return_glob then lsDetailsMap blobs2 true
                         else if detail then lsDetailsMap blobs2 false
                         else lsNamesMap blobs2))
          else if b.kind = .blobPfx then
            -- iterate the prefix's page contents; `return outblobs` sits inside
            -- the inner loop, so only the first contained blob is processed,
            -- and an empty page falls off the end of the method
            let depth := if target_path.count '/' = 0 then 2
                         else target_path.count '/' + 1
            match b.items with
            | [] => .ok none
            | blob :: _ =>
              .ok (some [if detail then .det (details blob.content false)
                         else .nameOnly (pfxDirName blob depth)])
          else if ¬ (b.hasBlobType = true) then
            .error .keyError   -- `blobs[0]["blob_type"]` on an item without the key
          else if b.blobType = "BlockBlob".data then
            .ok (some (if detail then lsDetailsMap [b] false else lsNamesMap [b]))
          else if b.kind = .paged then
            -- `async for page in blobs` iterates the plain list built by the
            -- earlier list-comprehension, which has no `__aiter__`: the loop
            -- raises TypeError before accumulating anything into `outblobs`
            .error .typeError
          else
            .error .fileNotFound
        | [] =>
          if return_glob = true ∨ (path = [] ∨ path = ['/']) then .ok (some [])
          else .error .fileNotFound
        | _ :: _ :: _ => .error .fileNotFound   -- dead: covered by `1 < length`
  else
    .ok none   -- no branch matches: the method falls off the end

/-!
## `AzureBlobFileSystem.walk` (core.py lines 799-862) and `find` (lines 759-792)

`walk` drives `self.ls(path, detail=True, return_glob=True)` on a remote
namespace and recurses into each pathname it classified as a directory.  The
namespace is modelled as a finite tree `Node`: the node denoted by the walked
path is either a blob of a given size or a virtual directory with named
children.  `nodeEntries t path` is the listing `ls` produces at that node: the
node's own `_details` entry when it is a blob whose key equals the path, and
one entry per child (named `path/child`, typed by `_details`' rule
`size == 0 → directory`) when it is a directory.  The model addresses a node
by the path that names it, so the query path is expected to carry no trailing
slash (every theorem about a blob node assumes `rstripSlash path = path`;
paths constructed during recursion satisfy this under `wfN`).

`walk` yields one `(path, dirs, files)` triple per visited level; `dirs` and
`files` carry the full names (`info["name"]` of the classified entries), which
is what `find` accumulates.  Python-dict keying is not replayed; `wfN`
requires distinct child names so that lists and dicts agree.
-/

/-- The remote namespace below one path: a blob or a virtual directory. -/
inductive Node where
  | file (size : Nat) : Node
  | dir (children : List (PyStr × Node)) : Node

/-- Whether the listing entry for this node is typed `"directory"`
(`_details`: size 0 — which a `BlobPrefix` always has — means directory). -/
def entryIsDir : Node → Bool
  | .file sz => sz == 0
  | .dir _ => true

/-- The full name `path + "/" + child` of a child entry. -/
def childPath (path : PyStr) (n : PyStr) : PyStr := path ++ '/' :: n

/-- The listing `ls(path, detail=True, return_glob=True)` produces at this
node: entry name, directory flag, and the sub-node the entry denotes. -/
def nodeEntries (t : Node) (path : PyStr) : List (PyStr × Bool × Node) :=
  match t with
  | .file sz => [(path, sz == 0, t)]
  | .dir cs => cs.map (fun nc => (childPath path nc.1, entryIsDir nc.2, nc.2))

/-- The classification test of `walk`'s loop:
`info["type"] == "directory" and pathname != path`. -/
def isDirEntry (path : PyStr) (e : PyStr × Bool × Node) : Bool :=
  e.2.1 && (rstripSlash e.1 != path)

/-- `walk`'s `dirs`/`full_dirs`: the stripped names of the entries classified
as directories. -/
def dirsOf (t : Node) (path : PyStr) : List PyStr :=
  (nodeEntries t path).filterMap
    (fun e => if isDirEntry path e then some (rstripSlash e.1) else none)

/-- `walk`'s `files`: the names of the entries not classified as directories
(including a file-like entry whose stripped name equals the walked path,
which the source stores under the key `""`). -/
def filesOf (t : Node) (path : PyStr) : List PyStr :=
  (nodeEntries t path).filterMap
    (fun e => if isDirEntry path e then none else some e.1)

/-- The directory entries of `full_dirs` paired with the sub-node each
pathname denotes, for recursion.  A blob node has no sub-nodes to descend
into (`fullDirs (.file _) _ = []`; under the no-trailing-slash convention
`dirsOf` is empty there too). -/
def fullDirs : Node → PyStr → List (PyStr × Node)
  | .file _, _ => []
  | .dir cs, path =>
    cs.filterMap (fun nc =>
      if isDirEntry path (childPath path nc.1, entryIsDir nc.2, nc.2)
      then some (rstripSlash (childPath path nc.1), nc.2) else none)

/-- Whether `walk` recurses: `maxdepth is None`, or `maxdepth - 1 ≥ 1`
(the source decrements and stops when the result is `< 1`). -/
def walkCont (md : Option Int) : Bool :=
  match md with
  | none => true
  | some d => decide (1 ≤ d - 1)

/-- `AzureBlobFileSystem.walk(path, maxdepth)`: the stream of
`(path, dirs, files)` triples, with `dirs`/`files` as full-name lists. -/
def walk (t : Node) (path : PyStr) (md : Option Int) :
    List (PyStr × List PyStr × List PyStr) :=
  (path, dirsOf t path, filesOf t path) ::
  (if walkCont md then
    ((fullDirs t path).attach.map
      (fun x => walk x.1.2 x.1.1 (md.map (· - 1)))).flatten
   else [])
termination_by sizeOf t
decreasing_by
  obtain ⟨⟨p, c⟩, hmem⟩ := x
  simp only
  rcases t with sz | cs
  · simp [fullDirs] at hmem
  · simp only [fullDirs, List.mem_filterMap] at hmem
    obtain ⟨⟨n, c'⟩, hnc, hsome⟩ := hmem
    by_cases hc :
        isDirEntry path (childPath path (n, c').1, entryIsDir (n, c').2, (n, c').2) = true
    · rw [if_pos hc] at hsome
      have hce : c' = c := congrArg Prod.snd (Option.some.inj hsome)
      subst hce
      have h1 : sizeOf (n, c') < sizeOf cs := List.sizeOf_lt_of_mem hnc
      simp only [Prod.mk.sizeOf_spec] at h1
      simp only [Node.dir.sizeOf_spec]
      omega
    · rw [if_neg hc] at hsome
      exact absurd hsome (by simp)

/-- Lexicographic `≤` on Python strings (used to model `sorted(out)`). -/
def strLe : PyStr → PyStr → Bool
  | [], _ => true
  | _ :: _, [] => false
  | a :: as, b :: bs => if a = b then strLe as bs else decide (a < b)

/-- `AzureBlobFileSystem.find(path, maxdepth, withdirs)` (non-detail result).
`isfile` is the inherited fsspec `self.isfile` collaborator.  Note the Python
`async for path, dirs, files in self.walk(...)` rebinds the function's `path`
to the last yielded level, which is what the trailing `self.isfile(path)`
check then sees. -/
def find (t : Node) (path : PyStr) (md : Option Int) (withdirs : Bool)
    (isfile : PyStr → Bool) : List PyStr :=
  let trips := walk t path md
  let out := trips.foldl
    (fun acc tr => acc ++ tr.2.2 ++ (if withdirs then tr.2.1 else [])) []
  let path2 := (trips.getLast?).elim path (fun tr => tr.1)
  let out2 := if isfile path2 && !(out.contains path2) then out ++ [path2] else out
  List.insertionSort (fun a b => strLe a b = true) out2.dedup

/-- The number of levels `walk t path none` visits: the node itself plus,
recursively, every child listed with type `"directory"`. -/
def countNodes : Node → Nat
  | .file _ => 1
  | .dir cs =>
    1 + ((cs.attach.map
      (fun x => if entryIsDir x.1.2 then countNodes x.1.2 else 0)).sum)
termination_by t => sizeOf t
decreasing_by
  obtain ⟨⟨n, c⟩, hmem⟩ := x
  have hx := List.sizeOf_lt_of_mem hmem
  simp only [Prod.mk.sizeOf_spec] at hx
  simp only [Node.dir.sizeOf_spec]
  omega

/-- The number of levels `walk t path (some d)` visits: levels at depth `< d`. -/
def countTo : Node → Nat → Nat
  | _, 0 => 0
  | .file _, _ + 1 => 1
  | .dir cs, d + 1 =>
    1 + ((cs.attach.map
      (fun x => if entryIsDir x.1.2 then countTo x.1.2 d else 0)).sum)
termination_by t _ => sizeOf t
decreasing_by
  obtain ⟨⟨n, c⟩, hmem⟩ := x
  have hx := List.sizeOf_lt_of_mem hmem
  simp only [Prod.mk.sizeOf_spec] at hx
  simp only [Node.dir.sizeOf_spec]
  omega

/-- Well-formedness of the namespace model: child names are nonempty path
segments (no `'/'`), and siblings are distinct (Python dicts key by name). -/
def wfN : Node → Bool
  | .file _ => true
  | .dir cs =>
    ((cs.map Prod.fst).dedup == cs.map Prod.fst) &&
    cs.attach.all (fun x =>
      (!x.1.1.isEmpty) && (!x.1.1.contains '/') && wfN x.1.2)
termination_by t => sizeOf t
decreasing_by
  obtain ⟨⟨n, c⟩, hmem⟩ := x
  have hx := List.sizeOf_lt_of_mem hmem
  simp only [Prod.mk.sizeOf_spec] at hx
  simp only [Node.dir.sizeOf_spec]
  omega

/-!
## `AzureBlobFileSystem.glob` (core.py lines 506-578)

`glob` strips the protocol, computes a search root and depth from the position
of the first wildcard, runs `find(root, maxdepth=depth, withdirs=True)`, turns
the glob into a regex source string by literal string rewriting, and filters
the found names through Python's `re` engine.  The `re` engine and the
`self.exists` / `self.isfile` calls are collaborator oracles here; the string
rewriting, root/depth computation, find call and filtering are embedded.
-/

/-- `glob.has_magic(path)`: does the path contain `*`, `?` or `[`. -/
def hasMagic (p : PyStr) : Bool :=
  p.any (fun c => c == '*' || c == '?' || c == '[')

/-- The index of the first wildcard:
`min(path.find("*"), path.find("?"), path.find("["))` with `len(path)` for a
missing wildcard (`List.indexOf` returns the length when absent, matching the
source's `if path.find(c) >= 0 else len(path)`). -/
def firstWildcard (p : PyStr) : Nat :=
  min (List.indexOf '*' p) (min (List.indexOf '?' p) (List.indexOf '[' p))

/-- Python `"**" in path`. -/
def hasSS : PyStr → Bool
  | '*' :: '*' :: _ => true
  | _ :: rest => hasSS rest
  | [] => false

/-- The `root`/`depth` computation of `glob` for a wildcard-bearing path
(core.py lines 543-549). -/
def globCompile (p : PyStr) : PyStr × Nat :=
  let ind := firstWildcard p
  let pre := p.take ind
  if pre.contains '/' then
    let ind2 := pre.length - 1 - List.indexOf '/' pre.reverse
    (p.take (ind2 + 1),
     if hasSS p then 20 else (p.drop (ind2 + 1)).count '/' + 1)
  else
    ([], if hasSS p then 20 else 1)

/-- Spec §4.2 `compile`, root (the claim's words): the pattern prefix up to
(but excluding) the first wildcard character, trimmed back to the last `/`
boundary — i.e. its trailing non-`/` characters dropped. -/
def specRoot (p : PyStr) : PyStr :=
  ((p.take (firstWildcard p)).reverse.dropWhile (fun c => c != '/')).reverse

/-- Spec §4.2: the number of `/`-delimited segments of the wildcard suffix
(the part of the pattern after the compiled root). -/
def specSegs (p : PyStr) : Nat := (p.drop (specRoot p).length).count '/' + 1

/-- Spec §4.2 `depth` as the claim states it: 20 when `**` occurs, else the
segment count of the wildcard suffix, with a minimum of 1. -/
def specDepth (p : PyStr) : Nat :=
  if hasSS p then 20 else max (specSegs p) 1

/-- Python `s.replace(pat, sub)` for a nonempty `pat`: left-to-right,
non-overlapping (each use in the source has a nonempty pattern). -/
def replaceAll (pat sub : PyStr) : PyStr → PyStr
  | [] => []
  | c :: rest =>
    if pat ≠ [] ∧ pat.isPrefixOf (c :: rest) then
      sub ++ replaceAll pat sub ((c :: rest).drop pat.length)
    else
      c :: replaceAll pat sub rest
termination_by l => l.length
decreasing_by
  · rename_i h
    simp only [List.length_drop, List.length_cons]
    have : 1 ≤ pat.length := by
      rcases pat with _ | ⟨p, ps⟩
      · exact absurd rfl h.1
      · simp
    omega
  · simp

/-- The regex source string `glob` compiles (core.py lines 552-569):
escaping, `//` collapsing, anchoring, and the two-stage `**`/`*`
substitution through the `=PLACEHOLDER=` token. -/
def translate (path : PyStr) : PyStr :=
  let p := replaceAll ['\\'] ['\\', '\\'] path
  let p := replaceAll ['.'] ['\\', '.'] p
  let p := replaceAll ['+'] ['\\', '+'] p
  let p := replaceAll ['/', '/'] ['/'] p
  let p := replaceAll ['('] ['\\', '('] p
  let p := replaceAll [')'] ['\\', ')'] p
  let p := replaceAll ['|'] ['\\', '|'] p
  let p := rstripSlash p
  let p := replaceAll ['?'] ['.'] p
  let pat := '^' :: p ++ ['$']
  let pat := replaceAll ['*', '*'] "=PLACEHOLDER=".data pat
  let pat := replaceAll ['*'] "[^/]*".data pat
  replaceAll "=PLACEHOLDER=".data ".*".data pat

/-- The common tail of `glob`: `find(root, maxdepth=depth, withdirs=True)`
filtered through the compiled pattern on sorted names.  `resolve` maps the
root path to the namespace node below it; `reMatch pat s` is
`re.compile(pat).match(s)` of the external `re` engine. -/
def globTail (resolve : PyStr → Node) (isfile : PyStr → Bool)
    (reMatch : PyStr → PyStr → Bool) (path root : PyStr) (depth : Nat) :
    List PyStr :=
  let allpaths := find (resolve root) root (some (depth : Int)) true isfile
  let pat := translate path
  allpaths.filter
    (fun p => reMatch pat (rstripSlash (replaceAll ['/', '/'] ['/'] p)))

/-- `AzureBlobFileSystem.glob(path)` (non-detail result).  `existsF` is the
`self.exists` collaborator. -/
def glob (resolve : PyStr → Node) (existsF : PyStr → Bool)
    (isfile : PyStr → Bool) (reMatch : PyStr → PyStr → Bool)
    (path0 : PyStr) : List PyStr :=
  let ends := path0.getLast? == some '/'
  let path := strip_protocol path0
  if ¬ (hasMagic path = true) then
    let root := path
    if ends then
      globTail resolve isfile reMatch (path ++ "/*".data) root 1
    else if existsF path then [path]
    else []   -- glob of non-existent returns empty
  else
    let rd := globCompile path
    globTail resolve isfile reMatch path rd.1 rd.2

/-!
## `AzureBlobFile` write path (core.py lines 1056-1281)

The writer state: the handle's own fields (`mode`, `blocksize`, `buffer`,
`loc`, `closed`, `forced`, `offset`, `_block_list`) plus the remote effects of
the SDK calls it makes, recorded in the state — `staged` is the sequence of
`stage_block(block_id, data)` calls, `committed` the argument of the final
`commit_block_list`, `deleted` whether `_initiate_upload` issued the
pre-delete.  Bytes are `List Nat`; `buffer.tell()` is the buffer length
(the cursor always sits at the end).  Block IDs are built by our own decimal
formatter `padId`, the meaning of Python's `f"{n:07d}"`.
-/

/-- Character of a decimal digit. -/
def digitChar : Nat → Char
  | 0 => '0' | 1 => '1' | 2 => '2' | 3 => '3' | 4 => '4'
  | 5 => '5' | 6 => '6' | 7 => '7' | 8 => '8' | 9 => '9'
  | _ => 'x'

/-- Decimal digit of a character (10 for non-digits). -/
def charDigit : Char → Nat
  | '0' => 0 | '1' => 1 | '2' => 2 | '3' => 3 | '4' => 4
  | '5' => 5 | '6' => 6 | '7' => 7 | '8' => 8 | '9' => 9
  | _ => 10

/-- Little-endian decimal digits with explicit fuel (structural recursion so
that the kernel can evaluate block IDs). -/
def decDigitsF : Nat → Nat → List Nat
  | 0, _ => []
  | _ + 1, 0 => []
  | fu + 1, n + 1 => ((n + 1) % 10) :: decDigitsF fu ((n + 1) / 10)

/-- Little-endian decimal digits of a positive number (empty for 0). -/
def decDigits (n : Nat) : List Nat := decDigitsF n n

/-- Big-endian decimal digits, `[0]` for 0. -/
def digitsBE (n : Nat) : List Nat :=
  if n = 0 then [0] else (decDigits n).reverse

/-- Python `f"{n:07d}"`: the decimal of `n` left-padded with `'0'` to 7
characters. -/
def padId (n : Nat) : PyStr :=
  let ds := (digitsBE n).map digitChar
  List.replicate (7 - ds.length) '0' ++ ds

/-- The state of a write-mode `AzureBlobFile` plus its remote effects. -/
structure WFile where
  mode : String
  blocksize : Nat
  buffer : List Nat
  loc : Nat
  closed : Bool
  forced : Bool
  offset : Option Nat
  blockList : List PyStr
  staged : List (PyStr × List Nat)
  committed : Option (List PyStr)
  deleted : Bool
deriving DecidableEq, Repr

/-- A freshly opened `"wb"` handle with block size `B`
(`__init__`, lines 1129-1133: fresh buffer, `offset=None`, `forced=False`). -/
def initWFile (B : Nat) : WFile :=
  { mode := "wb", blocksize := B, buffer := [], loc := 0, closed := false
    forced := false, offset := none, blockList := [], staged := []
    committed := none, deleted := false }

/-- `AzureBlobFile._initiate_upload` (lines 1170-1182): reset `_block_list`,
delete any pre-existing blob (Not-Found tolerated). -/
def initiateUpload (f : WFile) : WFile :=
  { f with blockList := [], deleted := true }

/-- `AzureBlobFile._upload_chunk(final)` (lines 1184-1204): stage the buffer
as the next sequentially numbered block; on `final`, commit the block list. -/
def uploadChunk (f : WFile) (final : Bool) : WFile :=
  let data := f.buffer
  let block_id := padId f.blockList.length
  let f1 := { f with staged := f.staged ++ [(block_id, data)]
                     blockList := f.blockList ++ [block_id] }
  if final then { f1 with committed := some f1.blockList } else f1

/-- `AzureBlobFile.flush(force)` (lines 1206-1240). -/
def flush (f : WFile) (force : Bool) : Except Err WFile :=
  if f.closed then .error (.valueError "Flush on closed file")
  else if force ∧ f.forced then
    .error (.valueError "Force flush cannot be called more than once")
  else
    let f1 := if force then { f with forced := true } else f
    if ¬ (f1.mode = "wb" ∨ f1.mode = "ab") then .ok f1   -- no-op on read mode
    else if ¬ force ∧ f1.buffer.length < f1.blocksize then .ok f1  -- defer
    else
      let f2 := if f1.offset = none then initiateUpload { f1 with offset := some 0 }
                else f1
      let f3 := uploadChunk f2 force
      .ok { f3 with offset := some (f3.offset.getD 0 + f3.buffer.length)
                    buffer := [] }

/-- `AzureBlobFile.write(data)` (lines 1242-1263): buffer the data and flush
once the buffer reaches the block size.  Returns the byte count written. -/
def write (f : WFile) (data : List Nat) : Except Err (WFile × Nat) :=
  if ¬ (f.mode = "wb" ∨ f.mode = "ab") then
    .error (.valueError "File not in write mode")
  else if f.closed then .error (.valueError "I/O operation on closed file.")
  else if f.forced then
    .error (.valueError "This file has been force-flushed, can only close")
  else
    let out := data.length
    let f1 := { f with buffer := f.buffer ++ data, loc := f.loc + out }
    if f1.blocksize ≤ f1.buffer.length then
      (flush f1 false).map (fun f2 => (f2, out))
    else .ok (f1, out)

/-- `AzureBlobFile.close` (lines 1265-1281): force-flush unless already
forced, then mark closed.  (Cache invalidation touches only the listing
cache, which this model does not carry.) -/
def close (f : WFile) : Except Err WFile :=
  if f.closed then .ok f
  else if f.mode = "rb" then .ok { f with closed := true }
  else
    (if ¬ f.forced then flush f true else .ok f).map
      (fun f2 => { f2 with closed := true })

/-- A sequence of `write` calls. -/
def runWrites (f : WFile) : List (List Nat) → Except Err WFile
  | [] => .ok f
  | b :: bs => (write f b).bind (fun p => runWrites p.1 bs)

/-- Open with block size `B`, write the given blocks, force-close. -/
def scenario (B : Nat) (bs : List (List Nat)) : Except Err WFile :=
  (runWrites (initWFile B) bs).bind close

/-- The bytes of the committed object: the staged data of each block ID in
the committed block list, in list order (the store's commit semantics). -/
def objectData (f : WFile) : List Nat :=
  (f.committed.getD []).flatMap
    (fun bid => ((f.staged.find? (fun s => s.1 == bid)).map Prod.snd).getD [])

/-- The numeric value of a digit string (inverse of `padId`, proof tool). -/
def unpadVal (s : PyStr) : Nat :=
  s.foldl (fun a c => 10 * a + charDigit c) 0

/-- The writer invariant after `k` writes of exactly `blocksize = B` bytes
each, where `dat i` is the data of the `i`-th staged block. -/
def WInv (B k : Nat) (dat : Nat → List Nat) (f : WFile) : Prop :=
  f.mode = "wb" ∧ f.closed = false ∧ f.forced = false ∧ f.blocksize = B
    ∧ f.buffer = [] ∧ f.committed = none
    ∧ f.offset = (if k = 0 then none else some (B * k))
    ∧ f.blockList = (List.range k).map padId
    ∧ f.staged = (List.range k).map (fun i => (padId i, dat i))
    ∧ f.deleted = (if k = 0 then false else true)

/-!
## Helper lemmas
-/

/-- Every digit produced by `decDigitsF` is a decimal digit. -/
theorem decDigitsF_lt : ∀ (fu n : Nat), ∀ d ∈ decDigitsF fu n, d < 10 := by
  intro fu
  induction fu with
  | zero => intro n d hd; simp [decDigitsF] at hd
  | succ fu ih =>
    intro n d hd
    match n with
    | 0 => simp [decDigitsF] at hd
    | m + 1 =>
      rw [decDigitsF] at hd
      rcases List.mem_cons.mp hd with h | h
      · subst h; exact Nat.mod_lt _ (by norm_num)
      · exact ih ((m + 1) / 10) d h

/-- Every digit produced by `decDigits` is a decimal digit. -/
theorem decDigits_lt (n : Nat) : ∀ d ∈ decDigits n, d < 10 :=
  decDigitsF_lt n n

/-- `charDigit` inverts `digitChar` on decimal digits. -/
theorem charDigit_digitChar {d : Nat} (hd : d < 10) :
    charDigit (digitChar d) = d := by
  interval_cases d <;> rfl

/-- The big-endian fold recovers the number from its little-endian digits,
given enough fuel. -/
theorem foldr_decDigitsF : ∀ (fu n : Nat), n ≤ fu →
    (decDigitsF fu n).foldr (fun d a => 10 * a + d) 0 = n := by
  intro fu
  induction fu with
  | zero => intro n hn; interval_cases n; rfl
  | succ fu ih =>
    intro n hn
    match n with
    | 0 => rfl
    | m + 1 =>
      rw [decDigitsF]
      simp only [List.foldr_cons]
      rw [ih ((m + 1) / 10) (by omega)]
      omega

/-- The big-endian fold recovers the number from its little-endian digits. -/
theorem foldr_decDigits (n : Nat) :
    (decDigits n).foldr (fun d a => 10 * a + d) 0 = n :=
  foldr_decDigitsF n n (Nat.le_refl n)

/-- Folding the digit-value step over digit characters equals folding over
the digits, for genuine decimal digits. -/
theorem foldl_digit_chars :
    ∀ (l : List Nat), (∀ d ∈ l, d < 10) → ∀ a : Nat,
      (l.map digitChar).foldl (fun a c => 10 * a + charDigit c) a
        = l.foldl (fun a d => 10 * a + d) a := by
  intro l
  induction l with
  | nil => intro _ _; rfl
  | cons d tl ih =>
    intro hl a
    simp only [List.map_cons, List.foldl_cons]
    rw [charDigit_digitChar (hl d (List.mem_cons_self d tl))]
    exact ih (fun x hx => hl x (List.mem_cons_of_mem d hx)) _

/-- Left fold of the digit-value step over leading `'0'` padding keeps 0. -/
theorem foldl_pad_zeros (k : Nat) :
    (List.replicate k '0').foldl (fun a c => 10 * a + charDigit c) 0 = 0 := by
  induction k with
  | zero => rfl
  | succ m ih => simpa [List.replicate_succ] using ih

/-- `unpadVal` recovers the block number from its padded block ID. -/
theorem unpadVal_padId (n : Nat) : unpadVal (padId n) = n := by
  unfold unpadVal padId
  rw [List.foldl_append, foldl_pad_zeros]
  by_cases h0 : n = 0
  · subst h0; rfl
  · have hd : ∀ d ∈ (decDigits n).reverse, d < 10 := by
      intro d hd; exact decDigits_lt n d (List.mem_reverse.mp hd)
    simp only [digitsBE, if_neg h0]
    rw [foldl_digit_chars _ hd 0, List.foldl_reverse]
    have : (fun (x : Nat) (y : Nat) => 10 * y + x) = (fun d a => 10 * a + d) := rfl
    rw [this, foldr_decDigits]

/-- Block IDs are distinct across block numbers. -/
theorem padId_inj {m n : Nat} (h : padId m = padId n) : m = n := by
  have := congrArg unpadVal h
  rwa [unpadVal_padId, unpadVal_padId] at this

/-- `find?` on the staged-block association list resolves a committed block
ID to the block staged under that ID. -/
theorem find_staged_eq (dat : Nat → List Nat) :
    ∀ (l : List Nat) (i : Nat), i ∈ l →
      ((l.map (fun j => (padId j, dat j))).find?
          (fun s => s.1 == padId i)) = some (padId i, dat i) := by
  intro l
  induction l with
  | nil => intro i hi; simp at hi
  | cons j tl ih =>
    intro i hi
    simp only [List.map_cons, List.find?_cons]
    by_cases hji : padId j = padId i
    · have : j = i := padId_inj hji
      subst this
      simp
    · have hne : (padId j == padId i) = false := beq_eq_false_iff_ne.mpr hji
      simp only [hne]
      have : i ∈ tl := by
        rcases List.mem_cons.mp hi with h | h
        · exact absurd (congrArg padId h.symm) hji
        · exact h
      exact ih i this

/-- Field preservation of `_upload_chunk`. -/
theorem uploadChunk_fields (f : WFile) (fin : Bool) :
    (uploadChunk f fin).mode = f.mode ∧ (uploadChunk f fin).closed = f.closed
      ∧ (uploadChunk f fin).forced = f.forced := by
  unfold uploadChunk
  split <;> simp

/-- A forced `flush` that succeeds never closes the handle, never changes the
mode, presupposes an open handle, and leaves it force-flushed. -/
theorem flush_force_ok_fields {f f' : WFile}
    (h : flush f true = .ok f') :
    f'.closed = f.closed ∧ f'.mode = f.mode ∧ f.closed = false
      ∧ f'.forced = true := by
  rcases f with ⟨mo, B, buf, lo, cl, fo, off, bl, st, co, de⟩
  cases cl
  case true => simp [flush] at h
  case false =>
    cases fo
    case true => simp [flush] at h
    case false =>
      by_cases hmo : mo = "wb" ∨ mo = "ab"
      · rcases off with _ | o <;>
          (simp only [flush, uploadChunk, initiateUpload] at h
           simp [hmo] at h
           obtain rfl := h.symm
           simp)
      · simp only [flush] at h
        simp [hmo] at h
        obtain rfl := h.symm
        simp


/-- One `write` of exactly `blocksize` bytes stages exactly one block and
re-establishes the writer invariant with `k+1` blocks. -/
theorem write_step {B k : Nat} {b : List Nat} {dat : Nat → List Nat} {f : WFile}
    (hb : b.length = B) (hB : 1 ≤ B) (hInv : WInv B k dat f) :
    ∃ f', write f b = .ok (f', B)
      ∧ WInv B (k + 1) (Function.update dat k b) f' := by
  obtain ⟨h1, h2, h3, h4, h5, h6, h7, h8, h9, h10⟩ := hInv
  rcases f with ⟨mo, Bs, buf, lo, cl, fo, off, bl, st, co, de⟩
  simp only at h1 h2 h3 h4 h5 h6 h7 h8 h9 h10
  subst h1 h2 h3 h4 h5 h6 h7 h8 h9 h10
  have hmap : ∀ m : Nat,
      List.map (fun i => (padId i, if i = m then b else dat i)) (List.range m)
        = List.map (fun i => (padId i, dat i)) (List.range m) := fun m =>
    List.map_congr_left (fun i hi => by
      have hik : i ≠ m := Nat.ne_of_lt (List.mem_range.mp hi)
      simp [hik])
  by_cases hk : k = 0
  · subst hk
    simp only [write, flush, uploadChunk, initiateUpload]
    simp [hb, hB, WInv, Function.update]
    exact ⟨_, rfl, rfl, rfl, rfl, rfl, rfl, rfl, rfl,
      by simp [List.range_succ], by simp [List.range_succ], rfl⟩
  · simp only [write, flush, uploadChunk, initiateUpload]
    simp [hb, hB, WInv, hk, Function.update]
    refine ⟨_, rfl, rfl, rfl, rfl, rfl, rfl, rfl, ?_, ?_, ?_, rfl⟩
    · rw [Nat.mul_succ]
    · simp [List.range_succ]
    · dsimp only
      rw [List.range_succ, List.map_append, hmap k]
      simp

/-- Iterating `write` over a list of exact-blocksize blocks keeps the
invariant, one staged block per write, each of length `B`. -/
theorem runWrites_ok {B : Nat} (hB : 1 ≤ B) :
    ∀ (bs : List (List Nat)) (k : Nat) (dat : Nat → List Nat) (f : WFile),
      WInv B k dat f → (∀ b ∈ bs, b.length = B) →
      ∃ g dat', runWrites f bs = .ok g ∧ WInv B (k + bs.length) dat' g
        ∧ (∀ i, i < k → dat' i = dat i)
        ∧ (∀ i, k ≤ i → i < k + bs.length → (dat' i).length = B)
  | [], k, dat, f, hInv, _ =>
    ⟨f, dat, rfl, by simpa using hInv, fun i hi => rfl,
      fun i h1 h2 => by simp at h2; omega⟩
  | b :: bs, k, dat, f, hInv, hbs => by
    obtain ⟨f', hw, hInv'⟩ :=
      write_step (hbs b (List.mem_cons_self b bs)) hB hInv
    obtain ⟨g, dat', hr, hInv'', hpres, hlen⟩ :=
      runWrites_ok hB bs (k + 1) _ f' hInv'
        (fun x hx => hbs x (List.mem_cons_of_mem b hx))
    refine ⟨g, dat', ?_, ?_, ?_, ?_⟩
    · simp only [runWrites]
      rw [hw]
      simpa using hr
    · have heq : k + 1 + bs.length = k + (b :: bs).length := by
        simp [List.length_cons]
        omega
      rwa [heq] at hInv''
    · intro i hi
      rw [hpres i (by omega), Function.update_noteq (by omega)]
    · intro i h1 h2
      by_cases hik : i = k
      · subst hik
        rw [hpres i (by omega), Function.update_same]
        exact hbs b (List.mem_cons_self b bs)
      · refine hlen i (by omega) ?_
        simp only [List.length_cons] at h2
        omega

/-- Force-closing under the invariant stages one final (empty) block and
commits the block list `padId 0 .. padId N`. -/
theorem close_final {B N : Nat} {dat : Nat → List Nat} {f : WFile}
    (hInv : WInv B N dat f) :
    ∃ g, close f = .ok g ∧ g.closed = true
      ∧ g.committed = some ((List.range (N + 1)).map padId)
      ∧ g.staged = (List.range (N + 1)).map
          (fun i => (padId i, Function.update dat N [] i)) := by
  obtain ⟨h1, h2, h3, h4, h5, h6, h7, h8, h9, h10⟩ := hInv
  rcases f with ⟨mo, Bs, buf, lo, cl, fo, off, bl, st, co, de⟩
  simp only at h1 h2 h3 h4 h5 h6 h7 h8 h9 h10
  subst h1 h2 h3 h4 h5 h6 h7 h8 h9 h10
  have hmap : ∀ m : Nat,
      List.map (fun i => (padId i, if i = m then ([] : List Nat) else dat i))
          (List.range m)
        = List.map (fun i => (padId i, dat i)) (List.range m) := fun m =>
    List.map_congr_left (fun i hi => by
      have hik : i ≠ m := Nat.ne_of_lt (List.mem_range.mp hi)
      simp [hik])
  by_cases hN : N = 0
  · subst hN
    simp only [close, flush, uploadChunk, initiateUpload]
    simp [WInv, Function.update]
    exact ⟨_, rfl, rfl, by simp [List.range_succ], by simp [List.range_succ]⟩
  · simp only [close, flush, uploadChunk, initiateUpload]
    simp [WInv, hN, Function.update]
    refine ⟨_, rfl, rfl, ?_, ?_⟩
    · simp [List.range_succ]
    · dsimp only
      rw [List.range_succ, List.map_append, hmap N]
      simp

/-- Resolving each committed ID against the staged association list yields
the staged data, blockwise. -/
theorem flatMap_staged (dat : Nat → List Nat) (m : Nat) :
    ∀ l : List Nat, (∀ a ∈ l, a ∈ List.range m) →
      (l.flatMap (fun a =>
        ((((List.range m).map (fun i => (padId i, dat i))).find?
            (fun s => s.1 == padId a)).map Prod.snd).getD []))
        = l.flatMap dat := by
  intro l
  induction l with
  | nil => intro _; rfl
  | cons a tl ih =>
    intro h
    simp only [List.flatMap_cons]
    rw [find_staged_eq dat (List.range m) a (h a (List.mem_cons_self a tl)),
      ih (fun x hx => h x (List.mem_cons_of_mem a hx))]
    rfl


/-- `lstrip("/")` is the identity on strings without a leading slash. -/
theorem lstripSlash_eq_self {p : PyStr} (h : p.head? ≠ some '/') :
    lstripSlash p = p := by
  unfold lstripSlash
  cases p with
  | nil => rfl
  | cons c rest =>
    have hc : ¬ (c == '/') = true := by
      simp only [List.head?_cons, ne_eq, Option.some.injEq] at h
      simp [h]
    rw [List.dropWhile_cons, if_neg hc]


/-- The index of the first `'/'` is the length of the slash-free prefix. -/
theorem indexOf_eq_length_takeWhile {r : PyStr} (h : '/' ∈ r) :
    List.indexOf '/' r = (r.takeWhile (fun c => c != '/')).length := by
  induction r with
  | nil => simp at h
  | cons c rest ih =>
    by_cases hc : c = '/'
    · subst hc
      simp [List.indexOf_cons, List.takeWhile_cons]
    · have hmem : '/' ∈ rest := by
        rcases List.mem_cons.mp h with h1 | h1
        · exact absurd h1.symm hc
        · exact h1
      have hb : (c == '/') = false := by simp [hc]
      have hb2 : (c != '/') = true := by simp [bne, hb]
      rw [List.indexOf_cons, List.takeWhile_cons, hb, if_pos hb2]
      simp [ih hmem]

theorem take_sub_indexOf_eq_dropRight {pre : PyStr} (h : '/' ∈ pre) :
    pre.take (pre.length - List.indexOf '/' pre.reverse)
      = (pre.reverse.dropWhile (fun c => c != '/')).reverse := by
  have hmem : '/' ∈ pre.reverse := List.mem_reverse.mpr h
  rw [indexOf_eq_length_takeWhile hmem]
  generalize hT : pre.reverse.takeWhile (fun c => c != '/') = T
  generalize hD : pre.reverse.dropWhile (fun c => c != '/') = D
  have hsplit : T ++ D = pre.reverse := by
    rw [← hT, ← hD]
    exact List.takeWhile_append_dropWhile _ _
  have hpre : pre = D.reverse ++ T.reverse := by
    have h2 : (T ++ D).reverse = pre := by rw [hsplit, List.reverse_reverse]
    rw [← h2, List.reverse_append]
  have hlen : pre.length - T.length = D.reverse.length := by
    have h3 := congrArg List.length hsplit
    simp only [List.length_append, List.length_reverse] at h3 ⊢
    omega
  rw [hlen]
  conv_lhs => rw [hpre]
  rw [List.take_left]

theorem dropWhile_no_slash {l : PyStr} (h : ¬ '/' ∈ l) :
    l.dropWhile (fun c => c != '/') = [] := by
  induction l with
  | nil => rfl
  | cons c rest ih =>
    have hc : ¬ c = '/' := fun he => h (he ▸ List.mem_cons_self c rest)
    have hb : (c != '/') = true := by simp [hc]
    rw [List.dropWhile_cons, if_pos hb]
    exact ih (fun hm => h (List.mem_cons_of_mem c hm))
end Adlfs
namespace Adlfs


/-- `rstrip("/")` is the identity on strings not ending in a slash. -/
theorem rstripSlash_eq_self_of_getLast {l : PyStr} (h : l.getLast? ≠ some '/') :
    rstripSlash l = l := by
  unfold rstripSlash
  have h2 : l.reverse.head? ≠ some '/' := by
    rw [List.head?_reverse]
    exact h
  have h3 := lstripSlash_eq_self h2
  unfold lstripSlash at h3
  rw [h3, List.reverse_reverse]

theorem childPath_clean {path n : PyStr} (hne : n ≠ [])
    (hns : n.contains '/' = false) :
    rstripSlash (childPath path n) = childPath path n
      ∧ childPath path n ≠ path := by
  constructor
  · refine rstripSlash_eq_self_of_getLast ?_
    intro hlast
    have hrev : (childPath path n).reverse.head? = some '/' := by
      rw [List.head?_reverse]
      exact hlast
    have hrw : (childPath path n).reverse = n.reverse ++ '/' :: path.reverse := by
      unfold childPath
      simp
    rw [hrw, List.head?_append_of_ne_nil _ (by simpa using hne)] at hrev
    have hmem : '/' ∈ n.reverse := List.mem_of_mem_head? (by simp [hrev])
    have : '/' ∈ n := List.mem_reverse.mp hmem
    simp only [List.contains] at hns
    rw [List.elem_iff.mpr this] at hns
    simp at hns
  · intro he
    have := congrArg List.length he
    unfold childPath at this
    simp at this

theorem wfN_dir {cs : List (PyStr × Node)} (h : wfN (.dir cs) = true) :
    ∀ nc ∈ cs, nc.1 ≠ [] ∧ nc.1.contains '/' = false ∧ wfN nc.2 = true := by
  intro nc hnc
  rw [wfN, Bool.and_eq_true, List.all_eq_true] at h
  have h2 := h.2 ⟨nc, hnc⟩ (List.mem_attach cs ⟨nc, hnc⟩)
  simp only [Bool.and_eq_true] at h2
  refine ⟨?_, ?_, h2.2⟩
  · intro he
    rw [he] at h2
    simp at h2
  · rcases h2 with ⟨⟨_, hcontains⟩, _⟩
    simpa using hcontains

theorem sum_filterMap_ite {A B : Type} (cs : List A) (q : A → Bool)
    (m : A → B) (F : B → Nat) :
    ((cs.filterMap (fun a => if q a then some (m a) else none)).map F).sum
      = (cs.map (fun a => if q a then F (m a) else 0)).sum := by
  induction cs with
  | nil => rfl
  | cons a tl ih =>
    by_cases hq : q a = true
    · simp [List.filterMap_cons, hq, ih]
    · simp [List.filterMap_cons, hq, ih]
theorem walk_length_unfold (t : Node) (path : PyStr) (md : Option Int)
    (hc : walkCont md = true) :
    (walk t path md).length
      = ((fullDirs t path).map
          (fun pc => (walk pc.2 pc.1 (md.map (· - 1))).length)).sum + 1 := by
  rw [walk]
  simp only [hc, if_true, List.length_cons, List.length_flatten, List.map_map,
    Function.comp]
  congr 2
  exact List.attach_map_val (fullDirs t path)
    (fun pc => (walk pc.2 pc.1 (md.map (· - 1))).length)

theorem fullDirs_dir_wf {cs : List (PyStr × Node)} {path : PyStr}
    (hwf : wfN (.dir cs) = true) :
    fullDirs (.dir cs) path
      = cs.filterMap (fun nc =>
          if entryIsDir nc.2
          then some (rstripSlash (childPath path nc.1), nc.2) else none) := by
  rw [fullDirs]
  refine List.filterMap_congr (fun nc hnc => ?_)
  obtain ⟨hne, hns, _⟩ := wfN_dir hwf nc hnc
  obtain ⟨hclean, hneq⟩ := @childPath_clean path nc.1 hne hns
  have hb : (rstripSlash (childPath path nc.1) != path) = true := by
    rw [hclean]
    simpa using hneq
  simp [isDirEntry, hb]
theorem countTo_zero (t : Node) : countTo t 0 = 0 := by
  rw [countTo]

theorem walk_count_aux :
    ∀ (n : Nat) (t : Node), sizeOf t ≤ n → wfN t = true →
      ∀ path : PyStr,
        ((walk t path none).length = countNodes t)
        ∧ (∀ d : Int, 1 ≤ d → (walk t path (some d)).length = countTo t d.toNat) := by
  intro n
  induction n with
  | zero =>
    intro t ht
    exfalso
    cases t <;> simp at ht
  | succ n ih =>
    intro t ht hwf path
    cases t with
    | file sz =>
      have hwalk : ∀ md, (walk (.file sz) path md).length = 1 := by
        intro md
        rw [walk]
        simp [fullDirs]
      constructor
      · rw [hwalk, countNodes]
      · intro d hd
        obtain ⟨m, hm⟩ : ∃ m, d.toNat = m + 1 := ⟨d.toNat - 1, by omega⟩
        rw [hwalk, hm, countTo]
    | dir cs =>
      have hsub : ∀ nc ∈ cs, sizeOf nc.2 ≤ n := by
        intro nc hnc
        have h1 := List.sizeOf_lt_of_mem hnc
        rcases nc with ⟨nm, c⟩
        simp only [Prod.mk.sizeOf_spec] at h1
        simp only [Node.dir.sizeOf_spec] at ht
        simp only
        omega
      have hwfs := wfN_dir hwf
      -- none case
      have hnone : (walk (.dir cs) path none).length = countNodes (.dir cs) := by
        rw [walk_length_unfold _ _ none rfl, fullDirs_dir_wf hwf,
          sum_filterMap_ite cs (fun nc => entryIsDir nc.2)
            (fun nc => (rstripSlash (childPath path nc.1), nc.2))
            (fun pc => (walk pc.2 pc.1 ((none : Option Int).map (· - 1))).length)]
        rw [countNodes]
        rw [List.attach_map_val cs
          (fun nc => if entryIsDir nc.2 then countNodes nc.2 else 0)]
        rw [Nat.add_comm]
        refine congrArg₂ (· + ·) rfl (congrArg List.sum
          (List.map_congr_left (fun nc hnc => ?_)))
        by_cases hq : entryIsDir nc.2 = true
        · simp only [hq, if_true]
          exact (ih nc.2 (hsub nc hnc) (hwfs nc hnc).2.2 _).1
        · simp [hq]
      refine ⟨hnone, ?_⟩
      intro d hd
      by_cases hd1 : d = 1
      · subst hd1
        have hrhs : countTo (.dir cs) ((1 : Int)).toNat = 1 := by
          have h1 : ((1 : Int)).toNat = 0 + 1 := rfl
          rw [h1, countTo]
          rw [List.attach_map_val cs
            (fun nc => if entryIsDir nc.2 then countTo nc.2 0 else 0)]
          have hz : (cs.map
              (fun nc => if entryIsDir nc.2 then countTo nc.2 0 else 0)).sum = 0 := by
            refine List.sum_eq_zero (fun x hx => ?_)
            obtain ⟨nc, hnc, rfl⟩ := List.mem_map.mp hx
            by_cases hq : entryIsDir nc.2 = true <;> simp [hq, countTo_zero]
          omega
        rw [walk, hrhs]
        have hc : walkCont (some 1) = false := rfl
        rw [hc]
        simp
      · have hd2 : 2 ≤ d := by omega
        have hc : walkCont (some d) = true := by
          simp [walkCont]
          omega
        rw [walk_length_unfold _ _ (some d) hc, fullDirs_dir_wf hwf,
          sum_filterMap_ite cs (fun nc => entryIsDir nc.2)
            (fun nc => (rstripSlash (childPath path nc.1), nc.2))
            (fun pc => (walk pc.2 pc.1 ((some d).map (· - 1))).length)]
        obtain ⟨m, hm⟩ : ∃ m, d.toNat = m + 1 := ⟨d.toNat - 1, by omega⟩
        rw [hm, countTo]
        rw [List.attach_map_val cs
          (fun nc => if entryIsDir nc.2 then countTo nc.2 m else 0)]
        rw [Nat.add_comm]
        refine congrArg₂ (· + ·) rfl (congrArg List.sum
          (List.map_congr_left (fun nc hnc => ?_)))
        by_cases hq : entryIsDir nc.2 = true
        · simp only [hq, if_true, Option.map_some']
          have hdm : ((d - 1 : Int)).toNat = m := by omega
          have hstep := (ih nc.2 (hsub nc hnc) (hwfs nc hnc).2.2
            (rstripSlash (childPath path nc.1))).2 (d - 1) (by omega)
          simp only at hstep ⊢
          rw [hstep, hdm]
        · simp [hq]

/-!
## Claim theorems
-/

/-- C9: every listing entry synthesized by `_details` has type `"directory"`
iff its size is 0: no directory entry carries a positive size, and every
zero-size entry (including a genuine zero-byte blob) is typed directory. -/
theorem details_directory_iff_size_zero (c : Content) (rg : Bool) :
    (details c rg).type = EType.directory ↔ (details c rg).size = 0 := by
  unfold details
  rcases c with ⟨hc, cont, nm, hs, sz⟩
  by_cases h1 : hc <;> by_cases h2 : hs <;> by_cases h3 : rg <;>
    by_cases h4 : sz = 0 <;> simp [h1, h2, h3, h4]

/-- C8: on a read-mode `AzureDatalakeFile`, `seek(-1, 0)` (and any seek whose
resulting offset is negative, and any whence outside `{0,1,2}`) raises
`ValueError`; `seek(0, 2)` sets and returns the cursor equal to the object's
size; `seek` on a handle not opened for reading raises `ValueError`. -/
theorem seek_spec (f : DLFile) :
    (f.mode = "rb" →
      f.seek (-1) 0 = .error (.valueError "Seek before start of file"))
  ∧ (∀ loc : Int, f.mode = "rb" → loc < 0 →
      f.seek loc 0 = .error (.valueError "Seek before start of file"))
  ∧ (∀ loc : Int, f.mode = "rb" → f.loc + loc < 0 →
      f.seek loc 1 = .error (.valueError "Seek before start of file"))
  ∧ (∀ loc : Int, f.mode = "rb" → f.size + loc < 0 →
      f.seek loc 2 = .error (.valueError "Seek before start of file"))
  ∧ (∀ loc whence : Int, f.mode = "rb" →
      whence ≠ 0 → whence ≠ 1 → whence ≠ 2 →
      f.seek loc whence = .error (.valueError "invalid whence (should be 0, 1 or 2)"))
  ∧ (f.mode = "rb" → 0 ≤ f.size →
      f.seek 0 2 = .ok ({ f with loc := f.size }, f.size))
  ∧ (∀ loc whence : Int, f.mode ≠ "rb" →
      f.seek loc whence = .error (.valueError "Seek only available in read mode")) := by
  refine ⟨?_, ?_, ?_, ?_, ?_, ?_, ?_⟩
  · intro h
    simp [DLFile.seek, h]
  · intro loc h hneg
    simp [DLFile.seek, h, hneg]
  · intro loc h hneg
    simp only [DLFile.seek, h]
    norm_num
    simp [hneg, show ¬ (1:Int) = 0 by norm_num]
  · intro loc h hneg
    simp only [DLFile.seek, h]
    norm_num
    simp [hneg, show ¬ (2:Int) = 0 by norm_num, show ¬ (2:Int) = 1 by norm_num]
  · intro loc whence h h0 h1 h2
    simp [DLFile.seek, h, h0, h1, h2]
  · intro h hsz
    simp [DLFile.seek, h, show ¬ (2:Int) = 0 by norm_num,
      show ¬ (2:Int) = 1 by norm_num]
    omega
  · intro loc whence h
    simp [DLFile.seek, h]

/-- C8 witness. -/
theorem seek_spec_witness :
    DLFile.seek ⟨"rb", 3, 100⟩ (-1) 0
        = .error (.valueError "Seek before start of file")
      ∧ DLFile.seek ⟨"rb", 3, 100⟩ 0 2 = .ok (⟨"rb", 100, 100⟩, 100)
      ∧ DLFile.seek ⟨"wb", 3, 100⟩ 0 0
        = .error (.valueError "Seek only available in read mode") :=
  ⟨(seek_spec ⟨"rb", 3, 100⟩).1 rfl,
   (seek_spec ⟨"rb", 3, 100⟩).2.2.2.2.2.1 rfl (by norm_num),
   (seek_spec ⟨"wb", 3, 100⟩).2.2.2.2.2.2 0 0 (by simp)⟩

/-- C10 counterexample: at the claimed input — a listing returning exactly
one item which is an `ItemPaged` page collection (name different from the
key and `blob_type` other than `"BlockBlob"`, so the earlier branches fall
through) — `ls` does NOT return `None`: the branch never reaches its
accumulation, because `async for page in blobs` iterates the plain list
materialized by the earlier comprehension and raises `TypeError` first. -/
theorem ls_itempaged_counterexample :
    ls ⟨[], fun _ _ =>
        some [.mk .paged ⟨true, "cont".data, "other".data, true, 5⟩ true
                "PageCollection".data [.mk .props ⟨true, "cont".data, "inner".data, true, 3⟩ true "BlockBlob".data []]]⟩
      "cont/key".data false false ≠ .ok none := by
  intro h
  have he : Except.error Err.typeError
      = (Except.ok none : Except Err (Option (List LsEntry))) :=
    Eq.trans (by rfl) h
  exact Except.noConfusion he

/-- C10 (amended): on a listing that returns exactly one item which is an
`ItemPaged` page collection (with a name different from the key and a
`blob_type` other than `"BlockBlob"`, so that the earlier branches fall
through), `ls` reaches the `ItemPaged` branch but its loop
`async for page in blobs` iterates the plain list built at the start of the
method and raises `TypeError` before accumulating anything, so the call
raises instead of returning a sequence of entries. -/
theorem ls_itempaged_typeerror :
    ls ⟨[], fun _ _ =>
        some [.mk .paged ⟨true, "cont".data, "other".data, true, 5⟩ true
                "PageCollection".data [.mk .props ⟨true, "cont".data, "inner".data, true, 3⟩ true "BlockBlob".data []]]⟩
      "cont/key".data false false = .error .typeError := by
  rfl

/-- C7: with the default `return_glob=False`, a non-root path (container and
key both nonempty) whose `walk_blobs` listing is empty makes `ls` raise
`FileNotFoundError`, while a path with an empty key (a bare container) and an
empty listing returns `[]` instead. -/
theorem ls_empty_listing (s : BlobStore) :
    (∀ raw c k, split_path raw = (c, k) →
      c ≠ [] → c ≠ ['/'] → k ≠ [] → k ≠ ['/'] →
      s.walkBlobs c k = some [] →
      ∀ detail, ls s raw detail false = .error .fileNotFound)
  ∧ (∀ raw c, split_path raw = (c, []) →
      c ≠ [] → c ≠ ['.'] → c ≠ ['/'] →
      s.walkBlobs c [] = some [] →
      ∀ detail, ls s raw detail false = .ok (some [])) := by
  constructor
  · intro raw c k hsplit hc1 hc2 hk1 hk2 hwb detail
    simp only [ls, hsplit]
    simp [hc1, hc2, hk1, hk2, hwb]
  · intro raw c hsplit hc1 hc2 hc3 hwb detail
    simp only [ls, hsplit]
    simp [hc1, hc2, hc3, hwb]

/-- C7 witness. -/
theorem ls_empty_listing_witness :
    ls ⟨[], fun _ _ => some []⟩ "cont/key".data false false = .error .fileNotFound
      ∧ ls ⟨[], fun _ _ => some []⟩ "cont".data false false = .ok (some []) :=
  ⟨(ls_empty_listing ⟨[], fun _ _ => some []⟩).1 "cont/key".data "cont".data "key".data
      (by decide) (by decide) (by decide) (by decide) (by decide) rfl false,
   (ls_empty_listing ⟨[], fun _ _ => some []⟩).2 "cont".data "cont".data
      (by decide) (by decide) (by decide) (by decide) rfl false⟩

/-- C2: once `flush(force=True)` has completed on a write-mode
`AzureBlobFile`, any subsequent `write` raises `ValueError` (the handle is
force-flushed), and any subsequent `flush(force=True)` raises `ValueError`
as well. -/
theorem write_after_force (f f' : WFile)
    (hmode : f.mode = "wb" ∨ f.mode = "ab")
    (hflush : flush f true = .ok f') :
    (∀ data, write f' data
        = .error (.valueError "This file has been force-flushed, can only close"))
  ∧ flush f' true
      = .error (.valueError "Force flush cannot be called more than once") := by
  obtain ⟨hc, hm, hc0, hforced'⟩ := flush_force_ok_fields hflush
  have hmode' : f'.mode = "wb" ∨ f'.mode = "ab" := by
    rw [hm]; exact hmode
  constructor
  · intro data
    unfold write
    rw [if_neg (by simp [hmode'.elim (fun h => Or.inl h) (fun h => Or.inr h)]),
      if_neg (by simp [hc, hc0]), if_pos hforced']
  · unfold flush
    rw [if_neg (by simp [hc, hc0]), if_pos (by simp [hforced'])]

/-- C2 witness. -/
theorem write_after_force_witness :
    (write (uploadChunk (initiateUpload
        { initWFile 4 with forced := true, offset := some 0 }) true
          |> (fun f3 => { f3 with
                offset := some (f3.offset.getD 0 + f3.buffer.length)
                buffer := [] })) [1]
      = .error (.valueError "This file has been force-flushed, can only close")) := by
  have h := write_after_force (initWFile 4)
    ((uploadChunk (initiateUpload
        { initWFile 4 with forced := true, offset := some 0 }) true
          |> (fun f3 => { f3 with
                offset := some (f3.offset.getD 0 + f3.buffer.length)
                buffer := [] })))
    (Or.inl rfl) (by rfl)
  exact h.1 [1]

/-- C1 (amended): writing `N` blocks of exactly `blocksize` bytes each and
force-closing commits `N + 1` block IDs — the `N` data blocks plus one final
empty block staged by the forced flush — as the 7-digit zero-padded decimal
sequence `padId 0, …, padId N`, ascending in the order they were staged
(`staged` ids equal the committed list); the resulting object's size still
equals the total number of bytes written. -/
theorem scenario_commits (B : Nat) (bs : List (List Nat)) (hB : 1 ≤ B)
    (hbs : ∀ b ∈ bs, b.length = B) :
    ∃ g, scenario B bs = .ok g ∧ g.closed = true
      ∧ g.committed = some ((List.range (bs.length + 1)).map padId)
      ∧ g.staged.map Prod.fst = (List.range (bs.length + 1)).map padId
      ∧ (objectData g).length = B * bs.length := by
  have hInv0 : WInv B 0 (fun _ => []) (initWFile B) := by
    simp [WInv, initWFile]
  obtain ⟨g1, dat', hr, hInv, hpres, hlen⟩ :=
    runWrites_ok hB bs 0 (fun _ => []) (initWFile B) hInv0 hbs
  rw [Nat.zero_add] at hInv
  obtain ⟨g, hc, hcl, hcom, hst⟩ := close_final hInv
  set N := bs.length with hN
  set dat2 := Function.update dat' N [] with hdat2
  have hstfst : g.staged.map Prod.fst = (List.range (N + 1)).map padId := by
    rw [hst, List.map_map]
    rfl
  refine ⟨g, ?_, hcl, hcom, hstfst, ?_⟩
  · simp only [scenario]
    rw [hr]
    simpa using hc
  · unfold objectData
    rw [hcom, hst]
    simp only [Option.getD_some]
    rw [List.flatMap_map]
    rw [flatMap_staged dat2 (N + 1) (List.range (N + 1)) (fun a ha => ha)]
    rw [List.length_flatMap]
    rw [List.range_succ, List.map_append]
    have hmB : List.map (List.length ∘ dat2) (List.range N)
        = List.map (fun _ => B) (List.range N) := by
      refine List.map_congr_left (fun i hi => ?_)
      have hiN : i < N := List.mem_range.mp hi
      have hup : dat2 i = dat' i := by
        simp [hdat2, Function.update_noteq (Nat.ne_of_lt hiN)]
      simp only [Function.comp_apply, hup]
      exact hlen i (Nat.zero_le i) (by omega)
    have hz : (List.map (List.length ∘ dat2) [N]) = [0] := by
      simp [hdat2]
    rw [hmB, hz]
    simp [List.map_const', List.sum_replicate, Nat.mul_comm]

/-- C1 counterexample: one write of exactly one `blocksize = 1` block
followed by a force-close commits TWO block IDs (`"0000000"` for the data
block and `"0000001"` for the empty final block), not one as the claim
states. -/
theorem scenario_single_block_counterexample :
    (scenario 1 [[0]]).toOption.map (fun g => g.committed)
        = some (some [padId 0, padId 1])
      ∧ padId 0 = "0000000".data ∧ padId 1 = "0000001".data
      ∧ [padId 0, padId 1].length ≠ 1 := by
  refine ⟨by rfl, by rfl, by rfl, by decide⟩

/-- C1 witness. -/
theorem scenario_commits_witness :
    ∃ g, scenario 2 [[1, 2], [3, 4], [5, 6]] = .ok g ∧ g.closed = true
      ∧ g.committed = some ((List.range 4).map padId)
      ∧ g.staged.map Prod.fst = (List.range 4).map padId
      ∧ (objectData g).length = 2 * 3 :=
  scenario_commits 2 [[1, 2], [3, 4], [5, 6]] (by decide) (by decide)

/-- C3: for a path without glob metacharacters (`*`, `?`, `[`), not ending in
`'/'` (and, per the path data model, not starting with one), `glob(p)` is an
existence check: `[p]` when `exists(p)`, `[]` — not an error — otherwise. -/
theorem glob_literal (resolve : PyStr → Node) (existsF isfile : PyStr → Bool)
    (reMatch : PyStr → PyStr → Bool) (p : PyStr)
    (hmagic : hasMagic p = false)
    (hhead : p.head? ≠ some '/')
    (hlast : p.getLast? ≠ some '/') :
    glob resolve existsF isfile reMatch p
      = (if existsF p then [p] else []) := by
  unfold glob
  rw [strip_protocol, lstripSlash_eq_self hhead]
  have hends : (p.getLast? == some '/') = false := by
    simpa using hlast
  rw [hends]
  simp [hmagic]

/-- C3 witness. -/
theorem glob_literal_witness :
    glob (fun _ => .file 0) (fun _ => true) (fun _ => false) (fun _ _ => false)
        "a/b".data = ["a/b".data]
      ∧ glob (fun _ => .file 0) (fun _ => false) (fun _ => false) (fun _ _ => false)
        "a/b".data = [] := by
  constructor
  · simpa using glob_literal (fun _ => .file 0) (fun _ => true) (fun _ => false)
      (fun _ _ => false) "a/b".data (by decide) (by decide) (by decide)
  · simpa using glob_literal (fun _ => .file 0) (fun _ => false) (fun _ => false)
      (fun _ _ => false) "a/b".data (by decide) (by decide) (by decide)

/-- C6: when the walked path denotes a file (a blob node), `find(path)`
returns a result containing that path, for any `maxdepth`, `withdirs`,
and `isfile` collaborator — the file's own listing entry is folded into the
output even though `walk` only descends directories. -/
theorem find_includes_bare_file (sz : Nat) (path : PyStr) (md : Option Int)
    (wd : Bool) (isfile : PyStr → Bool)
    (hp : rstripSlash path = path) :
    path ∈ find (.file sz) path md wd isfile := by
  have hdirs : dirsOf (.file sz) path = [] := by
    simp [dirsOf, nodeEntries, isDirEntry, hp]
  have hfiles : filesOf (.file sz) path = [path] := by
    simp [filesOf, nodeEntries, isDirEntry, hp]
  have hfd : fullDirs (.file sz) path = [] := rfl
  have htrips : walk (.file sz) path md = [(path, [], [path])] := by
    rw [walk, hdirs, hfiles, hfd]
    simp
  unfold find
  rw [htrips]
  simp [List.mem_insertionSort, List.mem_dedup]

/-- C6 witness. -/
theorem find_includes_bare_file_witness :
    "c/k".data ∈ find (.file 3) "c/k".data none false (fun _ => false) :=
  find_includes_bare_file 3 "c/k".data none false (fun _ => false) (by decide)

/-- C4 counterexample: for the wildcard pattern `"*/a"` the code computes
depth 1 (the pre-wildcard prefix holds no `/`, so the `root=""` branch fixes
depth at 1), while the claim's formula — segments of the wildcard suffix,
minimum 1 — gives 2. -/
theorem globCompile_spec_counterexample :
    hasMagic "*/a".data = true
      ∧ globCompile "*/a".data
          ≠ (specRoot "*/a".data, specDepth "*/a".data) := by
  exact ⟨by decide, by decide⟩

/-- C4 (amended): for every pattern containing a wildcard, the compiled root
is the pattern prefix up to (excluding) the first wildcard trimmed back to
the last `/` boundary, and the depth is 20 whenever `**` occurs, otherwise
the number of `/`-delimited segments in the wildcard suffix when the
pre-wildcard prefix contains a `/`, and 1 (regardless of the suffix's
segment count) when it does not. -/
theorem globCompile_spec (p : PyStr) (_hmagic : hasMagic p = true) :
    globCompile p
      = (specRoot p,
        if hasSS p then 20
        else if (p.take (firstWildcard p)).contains '/'
          then specSegs p
          else 1) := by
  by_cases hsl : (p.take (firstWildcard p)).contains '/' = true
  case pos =>
    have hmem : '/' ∈ p.take (firstWildcard p) := by
      simpa [List.contains] using hsl
    have hidx : List.indexOf '/' (p.take (firstWildcard p)).reverse
        < (p.take (firstWildcard p)).length := by
      have h1 := List.indexOf_lt_length.mpr (List.mem_reverse.mpr hmem)
      simpa using h1
    have hlenp : (p.take (firstWildcard p)).length ≤ firstWildcard p := by
      simp [List.length_take]
    have hlenp2 : (p.take (firstWildcard p)).length ≤ p.length := by
      simp [List.length_take]
    have hroot : p.take ((p.take (firstWildcard p)).length - 1
          - List.indexOf '/' (p.take (firstWildcard p)).reverse + 1)
        = specRoot p := by
      have hiq : (p.take (firstWildcard p)).length - 1
            - List.indexOf '/' (p.take (firstWildcard p)).reverse + 1
          = (p.take (firstWildcard p)).length
            - List.indexOf '/' (p.take (firstWildcard p)).reverse := by
        omega
      rw [hiq]
      have ht : p.take ((p.take (firstWildcard p)).length
            - List.indexOf '/' (p.take (firstWildcard p)).reverse)
          = (p.take (firstWildcard p)).take
              ((p.take (firstWildcard p)).length
                - List.indexOf '/' (p.take (firstWildcard p)).reverse) := by
        rw [List.take_take]
        congr 1
        omega
      rw [ht, take_sub_indexOf_eq_dropRight hmem]
      rfl
    have hrootlen : (specRoot p).length
        = (p.take (firstWildcard p)).length - 1
          - List.indexOf '/' (p.take (firstWildcard p)).reverse + 1 := by
      rw [← hroot, List.length_take]
      omega
    unfold globCompile
    dsimp only
    rw [if_pos hsl, hroot]
    unfold specSegs
    rw [hrootlen]
    simp only [hsl, if_true]
  case neg =>
    have hb : (p.take (firstWildcard p)).contains '/' = false := by
      simpa using hsl
    have hmem : ¬ '/' ∈ (p.take (firstWildcard p)).reverse := by
      intro hm
      exact hsl (by simpa [List.contains] using List.mem_reverse.mp hm)
    unfold globCompile
    dsimp only
    rw [if_neg hsl]
    unfold specRoot
    rw [dropWhile_no_slash hmem]
    have hmem2 : ¬ '/' ∈ List.take (firstWildcard p) p := fun hm =>
      hmem (List.mem_reverse.mpr hm)
    simp [hb, hmem2]

/-- C4 witness. -/
theorem globCompile_spec_witness :
    globCompile "a/*/b".data
      = (specRoot "a/*/b".data,
        if hasSS "a/*/b".data then 20
        else if ("a/*/b".data.take (firstWildcard "a/*/b".data)).contains '/'
          then specSegs "a/*/b".data
          else 1) :=
  globCompile_spec "a/*/b".data (by decide)

/-- C5: `walk(path, maxdepth=1)` yields exactly the one triple for the
walked path's own listing and recurses into no discovered subdirectory;
`walk(path, maxdepth=None)` visits every level the listings classify as a
directory (one triple per such node, `countNodes`); and for any finite
`maxdepth = d ≥ 1` the recursion decrements the depth by 1 per level and
stops once it falls below 1, visiting exactly the nodes at depth `< d`
(`countTo`).  `wfN` requires child names to be nonempty `/`-free segments
with distinct sibling names. -/
theorem walk_depth_spec (t : Node) (path : PyStr) (hwf : wfN t = true) :
    walk t path (some 1) = [(path, dirsOf t path, filesOf t path)]
    ∧ (walk t path none).length = countNodes t
    ∧ (∀ d : Int, 1 ≤ d →
        (walk t path (some d)).length = countTo t d.toNat) := by
  refine ⟨?_, (walk_count_aux (sizeOf t) t (Nat.le_refl _) hwf path).1,
    (walk_count_aux (sizeOf t) t (Nat.le_refl _) hwf path).2⟩
  rw [walk]
  have hc : walkCont (some 1) = false := rfl
  rw [hc]
  simp

theorem walk_depth_spec_witness :
    walk (.dir [("a".data, .dir [("b".data, .file 3)]), ("f".data, .file 5),
          ("z".data, .file 0)]) "c".data (some 1)
        = [("c".data,
            dirsOf (.dir [("a".data, .dir [("b".data, .file 3)]),
              ("f".data, .file 5), ("z".data, .file 0)]) "c".data,
            filesOf (.dir [("a".data, .dir [("b".data, .file 3)]),
              ("f".data, .file 5), ("z".data, .file 0)]) "c".data)]
      ∧ (walk (.dir [("a".data, .dir [("b".data, .file 3)]), ("f".data, .file 5),
          ("z".data, .file 0)]) "c".data none).length
        = countNodes (.dir [("a".data, .dir [("b".data, .file 3)]),
            ("f".data, .file 5), ("z".data, .file 0)])
      ∧ (walk (.dir [("a".data, .dir [("b".data, .file 3)]), ("f".data, .file 5),
          ("z".data, .file 0)]) "c".data (some 2)).length
        = countTo (.dir [("a".data, .dir [("b".data, .file 3)]),
            ("f".data, .file 5), ("z".data, .file 0)]) ((2 : Int)).toNat := by
  have h := walk_depth_spec
    (.dir [("a".data, .dir [("b".data, .file 3)]), ("f".data, .file 5),
      ("z".data, .file 0)]) "c".data
    (by simp [wfN, List.attach, List.attachWith, List.pmap])
  exact ⟨h.1, h.2.1, h.2.2 2 (by norm_num)⟩
end Adlfs
